import Mathlib

/-!
Verification of the WebRTCTranscribe repository (telemost_transcribe).

This file gives a shallow embedding of the two core subsystems:

* the segmented transcription engine
  (`src/telemost_transcribe/transcription/groq_transcriber.py`), and
* the session lifecycle controller
  (`src/telemost_transcribe/browser/telemost.py`),

together with the URL validation in `TelemostSession.__init__` and the
artifact-disposal logic of `cli._run_recording`.

Modelling conventions:
* Python floats (time values in seconds) are modelled as exact rationals `ℚ`;
  byte sizes as `ℕ`.
* External effects (ffmpeg extraction, ffprobe duration, silence detection,
  the Groq API) are oracles passed in as functions; `none` models a failed
  call / thrown exception.
* Temporary-file creation and deletion is tracked by an explicit event list
  (`FEv`), mirroring each point where the source creates a temp file or calls
  `unlink`.  `liveFiles` folds the events into the multiset of files present
  on disk (deletion of an absent file is a no-op, matching the
  `if path.exists(): path.unlink()` guards in the source).
* `while` loops are embedded with explicit fuel; the fuel chosen for
  `_split_by_duration` (`splitFuel`) is one more than the exact number of
  iterations the Python loop performs whenever `target > 0` (the source loop
  does not terminate for `target ≤ 0`; no claim exercises that case).
-/

/-- Byte-size ceiling per request: `GroqTranscriber.MAX_FILE_SIZE = 24 * 1024 * 1024`. -/
def MAX_FILE_SIZE : ℕ := 24 * 1024 * 1024

/-- Target segment size: `GroqTranscriber.TARGET_SEGMENT_SIZE = 20 * 1024 * 1024`. -/
def TARGET_SEGMENT_SIZE : ℕ := 20 * 1024 * 1024

/-- A produced audio segment: time range plus the extracted file's byte size
(the spec's `Segment {startTime, endTime, sizeBytes, filePath}`; the temp-file
path is identified by the time range, see `TFile.seg`). -/
structure Segment where
  start : ℚ
  stop : ℚ
  size : ℕ
deriving DecidableEq, Repr

/-- Identity of a file on disk used by the pipeline: the recorded artifact,
the MP3 conversion output of `_convert_to_mp3`, or an extracted segment
(identified by its time range; `tempfile.mktemp` names are fresh per call, so
`liveFiles` treats the event list as a multiset). -/
inductive TFile where
  | artifact : TFile
  | conv : TFile
  | seg (start stop : ℚ) : TFile
deriving DecidableEq, Repr

/-- A file-system event: a temp file coming into existence or being unlinked. -/
inductive FEv where
  | create (f : TFile) : FEv
  | delete (f : TFile) : FEv
deriving DecidableEq, Repr

/-- Files present on disk after a list of events, starting from `init`.
`delete` removes one occurrence and is a no-op when the file is absent,
matching the `if path.exists(): path.unlink()` guards in the source. -/
def liveFiles (init : List TFile) (evs : List FEv) : List TFile :=
  evs.foldl
    (fun acc ev =>
      match ev with
      | .create f => acc ++ [f]
      | .delete f => acc.erase f)
    init

/-- `GroqTranscriber._extract_segment`: returns `none` (creating no lasting
file) when the requested duration is `< 0.5` seconds; otherwise runs ffmpeg,
modelled by the oracle `ex` giving the extracted file's byte size (`none` =
ffmpeg failure/timeout, in which case the source unlinks any partial output,
so no net file event). On success the segment temp file is created. -/
def extractSegment (ex : ℚ → ℚ → Option ℕ) (a b : ℚ) : Option ℕ × List FEv :=
  if b - a < 1/2 then (none, [])
  else
    match ex a b with
    | some sz => (some sz, [.create (.seg a b)])
    | none => (none, [])

/-- Loop body of `GroqTranscriber._split_by_duration`, with explicit fuel.
Each iteration extracts `[current, min (current + target) total)` and advances
to that endpoint whether or not the extraction produced a file. -/
def splitGo (ex : ℚ → ℚ → Option ℕ) (target total : ℚ) :
    ℕ → ℚ → List Segment × List FEv
  | 0, _ => ([], [])
  | n + 1, current =>
    if current < total then
      let e := min (current + target) total
      match extractSegment ex current e with
      | (some sz, ev) =>
        let (rest, evs) := splitGo ex target total n e
        (⟨current, e, sz⟩ :: rest, ev ++ evs)
      | (none, ev) =>
        let (rest, evs) := splitGo ex target total n e
        (rest, ev ++ evs)
    else ([], [])

/-- Fuel sufficient for the `_split_by_duration` loop whenever `0 < target`:
the Python loop runs at most `⌈(total - start) / target⌉` iterations. -/
def splitFuel (target total start : ℚ) : ℕ :=
  (⌈(total - start) / target⌉).toNat + 1

/-- `GroqTranscriber._split_by_duration(audio_path, target, total, start)`. -/
def splitByDuration (ex : ℚ → ℚ → Option ℕ) (target total start : ℚ) :
    List Segment × List FEv :=
  splitGo ex target total (splitFuel target total start) start

/-- The silence-point walk of `GroqTranscriber._create_segments` (lines
290-301): cut at a silence point once the span since the last cut reaches
`target * 0.8`, keeping the cut only if the extracted file is strictly under
`MAX_FILE_SIZE`.  An extracted candidate that is rejected for its size is NOT
unlinked by the source — its `create` event has no matching `delete`. -/
def cutLoop (ex : ℚ → ℚ → Option ℕ) (target : ℚ) :
    List ℚ → ℚ → List Segment × ℚ × List FEv
  | [], s => ([], s, [])
  | p :: ps, s =>
    if target * (4/5) ≤ p - s then
      match extractSegment ex s p with
      | (some sz, ev) =>
        if sz < MAX_FILE_SIZE then
          let (rest, sFin, evs) := cutLoop ex target ps p
          (⟨s, p, sz⟩ :: rest, sFin, ev ++ evs)
        else
          let (rest, sFin, evs) := cutLoop ex target ps s
          (rest, sFin, ev ++ evs)
      | (none, ev) =>
        let (rest, sFin, evs) := cutLoop ex target ps s
        (rest, sFin, ev ++ evs)
    else cutLoop ex target ps s

/-- `GroqTranscriber._create_segments`: returns `[]` when there are no
silence points; otherwise walks the silence points and then handles the
remaining tail `[segment_start, total)` when it is longer than 1 second —
appending it if its size is `≤ MAX_FILE_SIZE`, and otherwise unlinking it and
splitting that range by fixed duration. -/
def createSegments (ex : ℚ → ℚ → Option ℕ) (pts : List ℚ) (total target : ℚ) :
    List Segment × List FEv :=
  if pts.isEmpty then ([], [])
  else
    let (cs, s, evs) := cutLoop ex target pts 0
    if s < total - 1 then
      match extractSegment ex s total with
      | (some sz, ev) =>
        if MAX_FILE_SIZE < sz then
          let (tl, tevs) := splitByDuration ex target total s
          (cs ++ tl, evs ++ ev ++ [.delete (.seg s total)] ++ tevs)
        else (cs ++ [⟨s, total, sz⟩], evs ++ ev)
      | (none, ev) => (cs, evs ++ ev)
    else (cs, evs)

/-- Segmentation step of `GroqTranscriber._transcribe_segmented` (lines
160-168): silence-based segments, falling back to uniform fixed-duration
splitting of the whole file when none were produced. -/
def planSegmentsEv (ex : ℚ → ℚ → Option ℕ) (pts : List ℚ) (total target : ℚ) :
    List Segment × List FEv :=
  let (segs, evs) := createSegments ex pts total target
  if segs.isEmpty then
    let (s2, e2) := splitByDuration ex target total 0
    (s2, evs ++ e2)
  else (segs, evs)

/-- The segments handed on for per-segment transcription. -/
def planSegments (ex : ℚ → ℚ → Option ℕ) (pts : List ℚ) (total target : ℚ) :
    List Segment :=
  (planSegmentsEv ex pts total target).1

/-- `segs` is a gap-free, overlap-free chain of time ranges starting at `a`:
each segment begins exactly where the previous one ended. -/
def chainFromB : List Segment → ℚ → Bool
  | [], _ => true
  | g :: gs, a => decide (g.start = a) && chainFromB gs g.stop

/-- End of the last range in `segs` (`a` when `segs` is empty). -/
def lastStop : List Segment → ℚ → ℚ
  | [], a => a
  | g :: gs, _ => lastStop gs g.stop

/-- The claim's coverage property: the ranges tile `[0, total)` exactly. -/
def coversExactly (segs : List Segment) (total : ℚ) : Bool :=
  chainFromB segs 0 && (lastStop segs 0 == total)

theorem chainFromB_append (xs ys : List Segment) (a : ℚ) :
    chainFromB (xs ++ ys) a = (chainFromB xs a && chainFromB ys (lastStop xs a)) := by
  induction xs generalizing a with
  | nil => simp [chainFromB, lastStop]
  | cons g gs ih => simp [chainFromB, lastStop, ih, Bool.and_assoc]

theorem lastStop_append (xs ys : List Segment) (a : ℚ) :
    lastStop (xs ++ ys) a = lastStop ys (lastStop xs a) := by
  induction xs generalizing a with
  | nil => simp [lastStop]
  | cons g gs ih => simp [lastStop, ih]

theorem extractSegment_fst (ex : ℚ → ℚ → Option ℕ) (a b : ℚ) :
    (extractSegment ex a b).1 = if b - a < 1/2 then none else ex a b := by
  unfold extractSegment
  split
  · rfl
  · cases h : ex a b <;> simp [h]

theorem splitGo_at_end (ex : ℚ → ℚ → Option ℕ) (target total : ℚ) (n : ℕ) (cur : ℚ)
    (h : total ≤ cur) : splitGo ex target total n cur = ([], []) := by
  cases n with
  | zero => rfl
  | succ n => simp [splitGo, not_lt.mpr h]

/-- Main invariant of the `_split_by_duration` loop: assuming every extraction
of a range at least 0.5 s long succeeds and the target duration is at least
0.5 s, the produced segments chain contiguously from `cur` and stop less than
0.5 s short of `total`, every segment being at least 0.5 s long. -/
theorem splitGo_ok (ex : ℚ → ℚ → Option ℕ) (target total : ℚ)
    (hex : ∀ a b : ℚ, (1:ℚ)/2 ≤ b - a → (ex a b).isSome)
    (ht : (1:ℚ)/2 ≤ target) :
    ∀ (n : ℕ) (cur : ℚ), cur ≤ total → total - cur ≤ n * target →
      chainFromB (splitGo ex target total n cur).1 cur = true ∧
      lastStop (splitGo ex target total n cur).1 cur ≤ total ∧
      total - lastStop (splitGo ex target total n cur).1 cur < 1/2 ∧
      ∀ g ∈ (splitGo ex target total n cur).1, (1:ℚ)/2 ≤ g.stop - g.start := by
  have htpos : (0:ℚ) < target := lt_of_lt_of_le (by norm_num) ht
  intro n
  induction n with
  | zero =>
    intro cur hle hfuel
    have h0 : total ≤ cur := by
      have : total - cur ≤ 0 := by simpa using hfuel
      linarith
    have hcur : cur = total := le_antisymm hle h0
    subst hcur
    simp [splitGo, chainFromB, lastStop]
  | succ n ih =>
    intro cur hle hfuel
    by_cases h : cur < total
    · set e := min (cur + target) total with he
      have heT : e ≤ total := min_le_right _ _
      by_cases hdur : (1:ℚ)/2 ≤ e - cur
      · -- the chunk is long enough: it is extracted and kept
        have hsome : (ex cur e).isSome := hex cur e hdur
        obtain ⟨sz, hsz⟩ := Option.isSome_iff_exists.mp hsome
        have hext : extractSegment ex cur e = (some sz, [.create (.seg cur e)]) := by
          unfold extractSegment
          rw [if_neg (not_lt.mpr hdur), hsz]
        have hfuel2 : total - e ≤ n * target := by
          rcases le_total (cur + target) total with h1 | h1
          · rw [he, min_eq_left h1]
            have : ((n:ℚ) + 1) * target = n * target + target := by ring
            push_cast at hfuel
            linarith
          · rw [he, min_eq_right h1]
            have : (0:ℚ) ≤ n * target := by positivity
            linarith
        obtain ⟨ihc, ihl, ihb, ihd⟩ := ih e heT hfuel2
        refine ⟨?_, ?_, ?_, ?_⟩ <;>
          simp only [splitGo, if_pos h, ← he, hext, chainFromB, lastStop]
        · simpa [chainFromB] using ihc
        · simpa [lastStop] using ihl
        · simpa [lastStop] using ihb
        · intro g hg
          rcases List.mem_cons.mp hg with hg | hg
          · subst hg; simpa using hdur
          · exact ihd g hg
      · -- final sliver shorter than 0.5 s: dropped, loop ends at total
        have het : e = total := by
          rcases le_total (cur + target) total with h1 | h1
          · exfalso
            rw [he, min_eq_left h1] at hdur
            simp at hdur
            linarith
          · rw [he, min_eq_right h1]
        have hext : extractSegment ex cur e = (none, []) := by
          unfold extractSegment
          rw [if_pos (not_le.mp hdur)]
        have hrest : splitGo ex target total n e = ([], []) := by
          exact splitGo_at_end ex target total n e (le_of_eq het.symm)
        have hlt : total - cur < 1/2 := by
          have := not_le.mp hdur
          rw [het] at this
          linarith
        refine ⟨?_, ?_, ?_, ?_⟩ <;>
          simp [splitGo, if_pos h, ← he, hext, hrest, chainFromB, lastStop, hle]
        linarith [hlt]
    · have hcur : cur = total := le_antisymm hle (not_lt.mp h)
      subst hcur
      simp [splitGo, chainFromB, lastStop]

/-- Fuel adequacy: `splitFuel` covers the whole range when `0 < target`. -/
theorem splitFuel_ok (target total start : ℚ) (htpos : (0:ℚ) < target) :
    total - start ≤ (splitFuel target total start : ℚ) * target := by
  set x : ℚ := (total - start) / target with hx
  have h1 : x ≤ (⌈x⌉ : ℚ) := Int.le_ceil x
  have h2 : (⌈x⌉ : ℚ) ≤ ((⌈x⌉.toNat : ℤ) : ℚ) := by
    exact_mod_cast Int.self_le_toNat _
  have h3 : total - start = x * target := by
    rw [hx, div_mul_cancel₀ _ (ne_of_gt htpos)]
  have h4 : (splitFuel target total start : ℚ) = (⌈x⌉.toNat : ℚ) + 1 := by
    simp [splitFuel, hx]
  rw [h3, h4]
  have h5 : x * target ≤ ((⌈x⌉.toNat : ℚ)) * target := by
    apply mul_le_mul_of_nonneg_right _ (le_of_lt htpos)
    calc x ≤ (⌈x⌉ : ℚ) := h1
    _ ≤ _ := by exact_mod_cast h2
  nlinarith

theorem splitByDuration_ok (ex : ℚ → ℚ → Option ℕ) (target total start : ℚ)
    (hex : ∀ a b : ℚ, (1:ℚ)/2 ≤ b - a → (ex a b).isSome)
    (ht : (1:ℚ)/2 ≤ target) (hstart : start ≤ total) :
    chainFromB (splitByDuration ex target total start).1 start = true ∧
    lastStop (splitByDuration ex target total start).1 start ≤ total ∧
    total - lastStop (splitByDuration ex target total start).1 start < 1/2 ∧
    ∀ g ∈ (splitByDuration ex target total start).1, (1:ℚ)/2 ≤ g.stop - g.start := by
  have htpos : (0:ℚ) < target := lt_of_lt_of_le (by norm_num) ht
  exact splitGo_ok ex target total hex ht _ start hstart (splitFuel_ok target total start htpos)

/-- Invariant of the silence-point walk: accepted cuts chain contiguously
from `s`, the final `segment_start` is the last accepted cut (or `s` itself),
it only moves forward onto silence points, and every accepted segment is at
least 0.5 s long. -/
theorem cutLoop_ok (ex : ℚ → ℚ → Option ℕ) (target : ℚ) :
    ∀ (pts : List ℚ) (s : ℚ),
      chainFromB (cutLoop ex target pts s).1 s = true ∧
      lastStop (cutLoop ex target pts s).1 s = (cutLoop ex target pts s).2.1 ∧
      s ≤ (cutLoop ex target pts s).2.1 ∧
      ((cutLoop ex target pts s).2.1 = s ∨ (cutLoop ex target pts s).2.1 ∈ pts) ∧
      ∀ g ∈ (cutLoop ex target pts s).1, (1:ℚ)/2 ≤ g.stop - g.start := by
  intro pts
  induction pts with
  | nil => intro s; simp [cutLoop, chainFromB, lastStop]
  | cons p ps ih =>
    intro s
    by_cases hc : target * (4/5) ≤ p - s
    · rcases hex2 : extractSegment ex s p with ⟨o, ev⟩
      cases o with
      | some sz =>
        have hdur : (1:ℚ)/2 ≤ p - s := by
          have := extractSegment_fst ex s p
          rw [hex2] at this
          by_contra hcon
          rw [if_pos (not_le.mp hcon)] at this
          exact Option.noConfusion this
        by_cases hsz : sz < MAX_FILE_SIZE
        · obtain ⟨ihc, ihl, ihle, ihmem, ihd⟩ := ih p
          refine ⟨?_, ?_, ?_, ?_, ?_⟩ <;>
            simp only [cutLoop, if_pos hc, hex2, if_pos hsz, chainFromB, lastStop]
          · simp [ihc]
          · exact ihl
          · have hsp : s ≤ p := by linarith
            exact le_trans hsp ihle
          · rcases ihmem with hm | hm
            · right; rw [hm]; exact List.mem_cons_self p ps
            · right; exact List.mem_cons_of_mem p hm
          · intro g hg
            rcases List.mem_cons.mp hg with hg | hg
            · subst hg; simpa using hdur
            · exact ihd g hg
        · obtain ⟨ihc, ihl, ihle, ihmem, ihd⟩ := ih s
          refine ⟨?_, ?_, ?_, ?_, ?_⟩ <;>
            simp only [cutLoop, if_pos hc, hex2, if_neg hsz]
          · exact ihc
          · exact ihl
          · exact ihle
          · rcases ihmem with hm | hm
            · left; exact hm
            · right; exact List.mem_cons_of_mem p hm
          · exact ihd
      | none =>
        obtain ⟨ihc, ihl, ihle, ihmem, ihd⟩ := ih s
        refine ⟨?_, ?_, ?_, ?_, ?_⟩ <;>
          simp only [cutLoop, if_pos hc, hex2]
        · exact ihc
        · exact ihl
        · exact ihle
        · rcases ihmem with hm | hm
          · left; exact hm
          · right; exact List.mem_cons_of_mem p hm
        · exact ihd
    · obtain ⟨ihc, ihl, ihle, ihmem, ihd⟩ := ih s
      refine ⟨?_, ?_, ?_, ?_, ?_⟩ <;>
        simp only [cutLoop, if_neg hc]
      · exact ihc
      · exact ihl
      · exact ihle
      · rcases ihmem with hm | hm
        · left; exact hm
        · right; exact List.mem_cons_of_mem p hm
      · exact ihd

/-- Every segment accepted inside the silence-point walk is strictly below
the size ceiling (`segment_path.stat().st_size < self.MAX_FILE_SIZE`). -/
theorem cutLoop_sizes (ex : ℚ → ℚ → Option ℕ) (target : ℚ) :
    ∀ (pts : List ℚ) (s : ℚ) (g : Segment),
      g ∈ (cutLoop ex target pts s).1 → g.size < MAX_FILE_SIZE := by
  intro pts
  induction pts with
  | nil => intro s g hg; simp [cutLoop] at hg
  | cons p ps ih =>
    intro s g hg
    by_cases hc : target * (4/5) ≤ p - s
    · rcases hex2 : extractSegment ex s p with ⟨o, ev⟩
      cases o with
      | some sz =>
        by_cases hsz : sz < MAX_FILE_SIZE
        · simp only [cutLoop, if_pos hc, hex2, if_pos hsz] at hg
          rcases List.mem_cons.mp hg with hg | hg
          · subst hg; exact hsz
          · exact ih p g hg
        · simp only [cutLoop, if_pos hc, hex2, if_neg hsz] at hg
          exact ih s g hg
      | none =>
        simp only [cutLoop, if_pos hc, hex2] at hg
        exact ih s g hg
    · simp only [cutLoop, if_neg hc] at hg
      exact ih s g hg

/-- Chain/coverage invariant of `_create_segments` (silence path), for a
non-empty silence-point list: segments chain from 0 and end at most 1 s short
of `total`. -/
theorem createSegments_ok (ex : ℚ → ℚ → Option ℕ) (pts : List ℚ) (total target : ℚ)
    (hex : ∀ a b : ℚ, (1:ℚ)/2 ≤ b - a → (ex a b).isSome)
    (ht : (1:ℚ)/2 ≤ target)
    (hpts : ∀ p ∈ pts, p ≤ total)
    (h0 : (0:ℚ) ≤ total)
    (hne : pts ≠ []) :
    chainFromB (createSegments ex pts total target).1 0 = true ∧
    lastStop (createSegments ex pts total target).1 0 ≤ total ∧
    total - lastStop (createSegments ex pts total target).1 0 ≤ 1 ∧
    ∀ g ∈ (createSegments ex pts total target).1, (1:ℚ)/2 ≤ g.stop - g.start := by
  have hne2 : pts.isEmpty = false := by
    cases pts with
    | nil => exact absurd rfl hne
    | cons a l => rfl
  obtain ⟨hcc, hcl, hcle, hcmem, hcd⟩ := cutLoop_ok ex target pts 0
  set s : ℚ := (cutLoop ex target pts 0).2.1 with hs
  have hstot : s ≤ total := by
    rcases hcmem with hm | hm
    · rw [hm]; exact h0
    · exact hpts s hm
  by_cases htail : s < total - 1
  · have hdur : (1:ℚ)/2 ≤ total - s := by linarith
    have hsome : (ex s total).isSome := hex s total hdur
    obtain ⟨sz, hsz⟩ := Option.isSome_iff_exists.mp hsome
    have hext : extractSegment ex s total = (some sz, [.create (.seg s total)]) := by
      unfold extractSegment
      rw [if_neg (not_lt.mpr hdur), hsz]
    by_cases hbig : MAX_FILE_SIZE < sz
    · -- oversized tail: deleted and re-split by fixed duration
      obtain ⟨hscn, hsl, hsb, hsd⟩ := splitByDuration_ok ex target total s hex ht hstot
      refine ⟨?_, ?_, ?_, ?_⟩ <;>
        simp only [createSegments, hne2, Bool.false_eq_true, if_false, ← hs, if_pos htail,
          hext, if_pos hbig]
      · rw [chainFromB_append, hcc, hcl, Bool.true_and]
        exact hscn
      · rw [lastStop_append, hcl]
        exact hsl
      · rw [lastStop_append, hcl]
        linarith [hsb]
      · intro g hg
        rcases List.mem_append.mp hg with hg | hg
        · exact hcd g hg
        · exact hsd g hg
    · -- tail fits: appended directly
      refine ⟨?_, ?_, ?_, ?_⟩ <;>
        simp only [createSegments, hne2, Bool.false_eq_true, if_false, ← hs, if_pos htail,
          hext, if_neg hbig]
      · rw [chainFromB_append, hcc, hcl, Bool.true_and]
        simp [chainFromB]
      · rw [lastStop_append, hcl]
        simp [lastStop]
      · rw [lastStop_append, hcl]
        simp [lastStop]
      · intro g hg
        rcases List.mem_append.mp hg with hg | hg
        · exact hcd g hg
        · rcases List.mem_singleton.mp hg with hg
          subst hg
          simpa using hdur
  · -- tail of at most 1 s: dropped entirely
    refine ⟨?_, ?_, ?_, ?_⟩ <;>
      simp only [createSegments, hne2, Bool.false_eq_true, if_false, ← hs, if_neg htail]
    · exact hcc
    · rw [hcl]; exact hstot
    · rw [hcl]; linarith [not_lt.mp htail]
    · exact hcd

/-- Chain/coverage invariant of the complete segmentation step
(silence path plus the fixed-duration fallback), under the same assumptions. -/
theorem planSegments_ok (ex : ℚ → ℚ → Option ℕ) (pts : List ℚ) (total target : ℚ)
    (hex : ∀ a b : ℚ, (1:ℚ)/2 ≤ b - a → (ex a b).isSome)
    (ht : (1:ℚ)/2 ≤ target)
    (hpts : ∀ p ∈ pts, p ≤ total)
    (h0 : (0:ℚ) ≤ total) :
    chainFromB (planSegments ex pts total target) 0 = true ∧
    lastStop (planSegments ex pts total target) 0 ≤ total ∧
    total - lastStop (planSegments ex pts total target) 0 ≤ 1 ∧
    ∀ g ∈ planSegments ex pts total target, (1:ℚ)/2 ≤ g.stop - g.start := by
  unfold planSegments planSegmentsEv
  by_cases hemp : (createSegments ex pts total target).1.isEmpty
  · obtain ⟨hsc, hsl, hsb, hsd⟩ := splitByDuration_ok ex target total 0 hex ht h0
    refine ⟨?_, ?_, ?_, ?_⟩ <;> simp only [hemp, if_true]
    · exact hsc
    · exact hsl
    · linarith [hsb]
    · exact hsd
  · have hne : pts ≠ [] := by
      intro hcon
      subst hcon
      simp [createSegments] at hemp
    obtain ⟨hcc, hcl, hcb, hcd⟩ := createSegments_ok ex pts total target hex ht hpts h0 hne
    refine ⟨?_, ?_, ?_, ?_⟩ <;> simp only [hemp, Bool.false_eq_true, if_false]
    · exact hcc
    · exact hcl
    · exact hcb
    · exact hcd

unseal Rat.add Rat.mul Rat.sub Rat.inv in
/-- C3 counterexample: a 5.25 s artifact split on the fixed-duration fallback
path (no silence points, target 5 s, every ffmpeg extraction succeeding with
size 0) yields the single range `[0, 5)`: the final 0.25 s chunk is below the
0.5 s extraction minimum and is silently dropped, so the ranges do not cover
`[0, totalDuration)`. -/
theorem C3_counterexample :
    coversExactly (planSegments (fun _ _ => some 0) [] (21/4) 5) (21/4) = false ∧
    planSegments (fun _ _ => some 0) [] (21/4) 5 = [⟨0, 5, 0⟩] := by
  constructor
  · decide
  · decide

/-- C3 (amended): whenever every extraction of a range at least 0.5 s long
succeeds, the target segment duration is at least 0.5 s, and the silence
points lie within the artifact, the segment time ranges produced by
segmentation (silence-based or fixed-duration fallback) are contiguous in
chronological order starting at 0 — no gaps between consecutive segments and
no overlaps — but they cover only a time range `[0, T)` with
`totalDuration - T ≤ 1`; a trailing sliver (shorter than 0.5 s on the
fixed-duration path, at most 1 s on the silence path) is dropped rather than
covered. -/
theorem C3_amended (ex : ℚ → ℚ → Option ℕ) (pts : List ℚ) (total target : ℚ)
    (hex : ∀ a b : ℚ, (1:ℚ)/2 ≤ b - a → (ex a b).isSome)
    (ht : (1:ℚ)/2 ≤ target)
    (hpts : ∀ p ∈ pts, p ≤ total)
    (h0 : (0:ℚ) ≤ total) :
    chainFromB (planSegments ex pts total target) 0 = true ∧
    lastStop (planSegments ex pts total target) 0 ≤ total ∧
    total - lastStop (planSegments ex pts total target) 0 ≤ 1 ∧
    ∀ g ∈ planSegments ex pts total target, g.start < g.stop := by
  obtain ⟨a, b, c, d⟩ := planSegments_ok ex pts total target hex ht hpts h0
  refine ⟨a, b, c, fun g hg => ?_⟩
  have := d g hg
  linarith

unseal Rat.add Rat.mul Rat.sub Rat.inv in
/-- C3 witness: the amended statement evaluated on a concrete artifact
(total 10 s, target 2 s, one silence point at 2 s, all extractions of size 0
succeeding). -/
theorem C3_amended_witness :
    chainFromB (planSegments (fun _ _ => some 0) [2] 10 2) 0 = true ∧
    lastStop (planSegments (fun _ _ => some 0) [2] 10 2) 0 ≤ 10 ∧
    (10:ℚ) - lastStop (planSegments (fun _ _ => some 0) [2] 10 2) 0 ≤ 1 ∧
    ∀ g ∈ planSegments (fun _ _ => some 0) [2] 10 2, g.start < g.stop :=
  C3_amended (fun _ _ => some 0) [2] 10 2
    (fun _ _ _ => rfl) (by decide) (by decide) (by decide)

unseal Rat.add Rat.mul Rat.sub Rat.inv in
/-- C4 counterexample: on the fixed-duration fallback path no size check is
performed at all — with every extraction reporting 25 MiB (26214400 bytes,
above the 24 MiB ceiling) for an 8 s artifact and 5 s target, the oversized
segment `[0, 5)` is returned to the caller as a final segment. -/
theorem C4_counterexample :
    ⟨0, 5, 26214400⟩ ∈ planSegments (fun _ _ => some 26214400) [] 8 5 ∧
    MAX_FILE_SIZE < 26214400 := by
  constructor
  · decide
  · decide

/-- C4 (amended): only the silence-based cut loop enforces the size ceiling —
every segment it accepts is strictly below `MAX_FILE_SIZE`; a segment of
`_create_segments` is either such a cut, or the directly-appended tail
(ending at `total`, checked only for `size ≤ MAX_FILE_SIZE`, so a tail of
exactly the ceiling is kept), or comes from `_split_by_duration` over the
tail range, which performs no size check. -/
theorem C4_amended (ex : ℚ → ℚ → Option ℕ) (target : ℚ) (pts : List ℚ) (a total : ℚ) :
    (∀ g ∈ (cutLoop ex target pts a).1, g.size < MAX_FILE_SIZE) ∧
    (∀ g ∈ (createSegments ex pts total target).1,
      g.size < MAX_FILE_SIZE ∨ (g.stop = total ∧ g.size ≤ MAX_FILE_SIZE) ∨
      g ∈ (splitByDuration ex target total (cutLoop ex target pts 0).2.1).1) := by
  constructor
  · intro g hg
    exact cutLoop_sizes ex target pts a g hg
  · intro g hg
    by_cases hemp : pts.isEmpty
    · simp [createSegments, hemp] at hg
    · simp only [createSegments, hemp, Bool.false_eq_true, if_false] at hg
      by_cases htail : (cutLoop ex target pts 0).2.1 < total - 1
      · rcases hex2 : extractSegment ex (cutLoop ex target pts 0).2.1 total with ⟨o, ev⟩
        cases o with
        | some sz =>
          by_cases hbig : MAX_FILE_SIZE < sz
          · simp only [if_pos htail, hex2, if_pos hbig] at hg
            rcases List.mem_append.mp hg with hg | hg
            · exact Or.inl (cutLoop_sizes ex target pts 0 g hg)
            · exact Or.inr (Or.inr hg)
          · simp only [if_pos htail, hex2, if_neg hbig] at hg
            rcases List.mem_append.mp hg with hg | hg
            · exact Or.inl (cutLoop_sizes ex target pts 0 g hg)
            · rcases List.mem_singleton.mp hg with hg
              subst hg
              exact Or.inr (Or.inl ⟨rfl, not_lt.mp hbig⟩)
        | none =>
          simp only [if_pos htail, hex2] at hg
          exact Or.inl (cutLoop_sizes ex target pts 0 g hg)
      · simp only [if_neg htail] at hg
        exact Or.inl (cutLoop_sizes ex target pts 0 g hg)

unseal Rat.add Rat.mul Rat.sub Rat.inv in
/-- C4 witness: the amended statement evaluated on a concrete run (silence
point at 2 s in a 10 s artifact, target 2 s), at the concrete member
`[0, 2)` of the produced segments. -/
theorem C4_amended_witness :
    (⟨0, 2, 0⟩ ∈ (createSegments (fun _ _ => some 0) [2] 10 2).1) ∧
    (Segment.size ⟨0, 2, 0⟩ < MAX_FILE_SIZE ∨
      (Segment.stop ⟨0, 2, 0⟩ = 10 ∧ Segment.size ⟨0, 2, 0⟩ ≤ MAX_FILE_SIZE) ∨
      (⟨0, 2, 0⟩ : Segment) ∈
        (splitByDuration (fun _ _ => some 0) 2 10
          (cutLoop (fun _ _ => some 0) 2 [2] 0).2.1).1) :=
  ⟨by decide,
    (C4_amended (fun _ _ => some 0) 2 [2] 0 10).2 ⟨0, 2, 0⟩ (by decide)⟩

/-! ### Session lifecycle controller (`browser/telemost.py`) -/

/-- `STATUS_CHECK_INTERVAL = 5` seconds between polls of `_wait_for_end`. -/
def STATUS_CHECK_INTERVAL : ℕ := 5

/-- Result of `TelemostSession._wait_for_connection` (lines 393-429): the
loop polls once per second for `waiting_room_timeout` ticks.
`connected i` = returned at tick `i` (`peer_conns > 0` and `tracks > 0`);
`wrTimeout i` = `WaitingRoomTimeoutError` raised after `i` ticks;
`normalReturn i` = the loop exhausted after `i` ticks and the method
returned normally, raising nothing. -/
inductive ConnResult where
  | connected (tick : ℕ) : ConnResult
  | wrTimeout (ticks : ℕ) : ConnResult
  | normalReturn (ticks : ℕ) : ConnResult
deriving DecidableEq, Repr

/-- The poll loop of `_wait_for_connection`.  `polls i` gives
`(peerConnections, tracksConnected)` of the status probe at tick `i`;
`flag` is `has_connection_no_audio`, set once a poll shows connections but no
audio tracks and never cleared.  After the loop, the source raises
`WaitingRoomTimeoutError` only when that flag is set; with the flag clear it
falls through and returns normally. -/
def waitConnGo (polls : ℕ → ℕ × ℕ) : ℕ → ℕ → Bool → ConnResult
  | i, 0, flag => if flag then .wrTimeout i else .normalReturn i
  | i, rem + 1, flag =>
    let (p, t) := polls i
    if 0 < p then
      if 0 < t then .connected i
      else waitConnGo polls (i + 1) rem true
    else waitConnGo polls (i + 1) rem flag

/-- `TelemostSession._wait_for_connection` with `waiting_room_timeout = wrt`. -/
def waitForConnection (polls : ℕ → ℕ × ℕ) (wrt : ℕ) : ConnResult :=
  waitConnGo polls 0 wrt false

/-- C1 counterexample: with `waitingRoomTimeout = 3` and `connectionCount = 0`
on every tick, `_wait_for_connection` does not fail at all — after exactly 3
ticks the loop exhausts, `has_connection_no_audio` is still false, so the
`WaitingRoomTimeoutError` raise is skipped and the method returns normally
(the session then proceeds as if connected). -/
theorem C1_counterexample :
    waitForConnection (fun _ => (0, 0)) 3 = ConnResult.normalReturn 3 ∧
    ConnResult.normalReturn 3 ≠ ConnResult.wrTimeout 3 := by
  constructor
  · decide
  · decide

theorem waitConnGo_zero (polls : ℕ → ℕ × ℕ)
    (rem : ℕ) :
    ∀ (i : ℕ) (flag : Bool), (∀ j, i ≤ j → j < i + rem → (polls j).1 = 0) →
      waitConnGo polls i rem flag =
        if flag then ConnResult.wrTimeout (i + rem) else ConnResult.normalReturn (i + rem) := by
  induction rem with
  | zero => intro i flag _; simp [waitConnGo]
  | succ n ih =>
    intro i flag hz
    rcases hp : polls i with ⟨p, t⟩
    have hp0 : p = 0 := by
      have := hz i le_rfl (by omega)
      rw [hp] at this
      simpa using this
    subst hp0
    have step : waitConnGo polls i (n + 1) flag = waitConnGo polls (i + 1) n flag := by
      conv_lhs => rw [waitConnGo]
      rw [hp]
      simp
    rw [step, ih (i + 1) flag (fun j h1 h2 => hz j (by omega) (by omega))]
    have : i + 1 + n = i + (n + 1) := by omega
    rw [this]

/-- C1 (amended): for every sequence of poll results in which
`connectionCount` is 0 on every tick, the connection-wait loop consumes
exactly `waitingRoomTimeout` ticks — never returning earlier — and then
returns normally without raising any error; the connection-timeout kind of
failure (`WaitingRoomTimeoutError`) is raised at timeout only when some
tick saw a connection with no audio tracks. -/
theorem C1_amended (polls : ℕ → ℕ × ℕ) (wrt : ℕ)
    (hz : ∀ j, j < wrt → (polls j).1 = 0) :
    waitForConnection polls wrt = ConnResult.normalReturn wrt := by
  unfold waitForConnection
  rw [waitConnGo_zero polls wrt 0 false (fun j h1 h2 => hz j (by omega))]
  simp

/-- C1 witness: the amended statement at `waitingRoomTimeout = 3` with the
all-zero poll sequence. -/
theorem C1_amended_witness :
    waitForConnection (fun _ => (0, 0)) 3 = ConnResult.normalReturn 3 :=
  C1_amended (fun _ => (0, 0)) 3 (fun _ _ => rfl)

/-- State carried across iterations of `TelemostSession._wait_for_end`:
`alone_count`, `total_alone_time` and `had_participants`. -/
structure WState where
  aloneCount : ℕ
  totalAlone : ℕ
  had : Bool
deriving DecidableEq, Repr

/-- One poll observation in `_wait_for_end`: whether `_check_meeting_ended`
reported an end screen, and the participant count from
`_get_participant_count` (`-1` = unknown). -/
structure Tick where
  ended : Bool
  count : ℤ
deriving DecidableEq, Repr

/-- Configuration of `_wait_for_end`: `alone_wait_seconds` and
`empty_meeting_timeout` (both non-negative integers in every configuration
`Config.load` can produce). -/
structure WFEConfig where
  aloneWait : ℕ
  emptyTimeout : ℕ
deriving DecidableEq, Repr

/-- `max(1, self.alone_wait_seconds // STATUS_CHECK_INTERVAL)` (line 464). -/
def maxAlone (cfg : WFEConfig) : ℕ :=
  max 1 (cfg.aloneWait / STATUS_CHECK_INTERVAL)

/-- Why the `_wait_for_end` loop terminated: the end-screen check fired, or
everyone left after peers had been seen (`alone_count >= max_alone`). -/
inductive EndWhy where
  | endScreen : EndWhy
  | allLeft : EndWhy
deriving DecidableEq, Repr

/-- Result of one loop iteration: `halt` = `break` out of the loop, or
`cont s swallowed` = continue with updated state.  `swallowed = true` records
that this iteration executed `raise NoParticipantsError` (line 499) — which
sits inside the `try:` of line 478, so the blanket `except Exception` handler
at line 508 catches it, logs `Status check error`, and the loop continues:
the exception never escapes the method. -/
inductive StepRes where
  | halt (why : EndWhy) : StepRes
  | cont (s : WState) (swallowedNoParticipants : Bool) : StepRes
deriving DecidableEq, Repr

/-- One iteration of the `while True` loop of `_wait_for_end` (lines
466-512), given the poll observation of this tick. -/
def stepWFE (cfg : WFEConfig) (s : WState) (t : Tick) : StepRes :=
  if t.ended then .halt .endScreen
  else if t.count = 1 then
    let ac := s.aloneCount + 1
    let ta := s.totalAlone + STATUS_CHECK_INTERVAL
    if s.had then
      if maxAlone cfg ≤ ac then .halt .allLeft
      else .cont ⟨ac, ta, s.had⟩ false
    else
      if cfg.emptyTimeout ≤ ta then .cont ⟨ac, ta, s.had⟩ true
      else .cont ⟨ac, ta, s.had⟩ false
  else if 1 < t.count then .cont ⟨0, s.totalAlone, true⟩ false
  else .cont s false

/-- Outcome of running `_wait_for_end` on a finite list of poll
observations: either the loop broke out (meeting over) or it is still
polling with state `s`. -/
inductive WFEOutcome where
  | finished (why : EndWhy) : WFEOutcome
  | running (s : WState) : WFEOutcome
deriving DecidableEq, Repr

/-- Run `_wait_for_end` over a list of poll observations. -/
def runWFE (cfg : WFEConfig) : WState → List Tick → WFEOutcome
  | s, [] => .running s
  | s, t :: ts =>
    match stepWFE cfg s t with
    | .halt why => .finished why
    | .cont s2 _ => runWFE cfg s2 ts

/-- Initial state of `_wait_for_end`: `alone_count = 0`,
`total_alone_time = 0`, `had_participants = False`. -/
def initWState : WState := ⟨0, 0, false⟩

/-- A poll tick with exactly one participant (the bot alone), no end screen. -/
def aloneTick : Tick := ⟨false, 1⟩

/-- A poll tick with two participants, no end screen. -/
def peersTick : Tick := ⟨false, 2⟩

theorem runWFE_append (cfg : WFEConfig) (xs ys : List Tick) :
    ∀ s : WState, runWFE cfg s (xs ++ ys) =
      match runWFE cfg s xs with
      | .finished why => .finished why
      | .running s2 => runWFE cfg s2 ys := by
  induction xs with
  | nil => intro s; simp [runWFE]
  | cons t ts ih =>
    intro s
    simp only [List.cons_append, runWFE]
    cases stepWFE cfg s t with
    | halt why => rfl
    | cont s2 _ => exact ih s2

/-- Feeding alone ticks to a state that has seen peers (`had = true`):
while `alone_count` stays below `max_alone` the loop keeps running,
incrementing `alone_count` and `total_alone_time`. -/
theorem runWFE_alone_true (cfg : WFEConfig) :
    ∀ (m k T : ℕ), k + m < maxAlone cfg →
      runWFE cfg ⟨k, T, true⟩ (List.replicate m aloneTick) =
        .running ⟨k + m, T + STATUS_CHECK_INTERVAL * m, true⟩ := by
  intro m
  induction m with
  | zero => intro k T _; simp [runWFE]
  | succ n ih =>
    intro k T hm
    have hnot : ¬ maxAlone cfg ≤ k + 1 := by omega
    have hstep : stepWFE cfg ⟨k, T, true⟩ aloneTick =
        .cont ⟨k + 1, T + STATUS_CHECK_INTERVAL, true⟩ false := by
      simp [stepWFE, aloneTick, hnot]
    rw [List.replicate_succ]
    simp only [runWFE, hstep]
    rw [ih (k + 1) (T + STATUS_CHECK_INTERVAL) (by omega)]
    have h1 : k + 1 + n = k + (n + 1) := by omega
    have h2 : T + STATUS_CHECK_INTERVAL + STATUS_CHECK_INTERVAL * n =
        T + STATUS_CHECK_INTERVAL * (n + 1) := by ring
    rw [h1, h2]

/-- Feeding exactly the missing number of alone ticks to a state that has
seen peers makes the loop break with the all-left outcome. -/
theorem runWFE_alone_halt (cfg : WFEConfig) :
    ∀ (m k T : ℕ), 1 ≤ m → m + k = maxAlone cfg →
      runWFE cfg ⟨k, T, true⟩ (List.replicate m aloneTick) = .finished .allLeft := by
  intro m
  induction m with
  | zero => intro k T h1 _; omega
  | succ n ih =>
    intro k T h1 hsum
    rw [List.replicate_succ]
    by_cases hn : n = 0
    · subst hn
      have hle : maxAlone cfg ≤ k + 1 := by omega
      have hstep : stepWFE cfg ⟨k, T, true⟩ aloneTick = .halt .allLeft := by
        simp [stepWFE, aloneTick, hle]
      simp [runWFE, hstep]
    · have hnot : ¬ maxAlone cfg ≤ k + 1 := by omega
      have hstep : stepWFE cfg ⟨k, T, true⟩ aloneTick =
          .cont ⟨k + 1, T + STATUS_CHECK_INTERVAL, true⟩ false := by
        simp [stepWFE, aloneTick, hnot]
      simp only [runWFE, hstep]
      exact ih (k + 1) (T + STATUS_CHECK_INTERVAL) (by omega) (by omega)

/-- C2 counterexample: with `aloneWaitSeconds = 7` and the 5 s poll interval,
the claim's `ceil(7/5) = 2` says the controller must still be recording after
1 further alone tick and end only on the 2nd; the code computes
`max(1, 7 // 5) = 1` (floor) and ends recording already on the 1st alone tick
after the peers left. -/
theorem C2_counterexample :
    runWFE ⟨7, 600⟩ initWState [peersTick, aloneTick] = .finished .allLeft ∧
    (7 + STATUS_CHECK_INTERVAL - 1) / STATUS_CHECK_INTERVAL = 2 := by
  constructor
  · decide
  · decide

/-- C2 (amended): for every poll sequence in which the participant count
rises above 1 at least once and later returns to 1 and stays there, the
controller transitions to Ended (the all-left break) after exactly
`max(1, floor(aloneWaitSeconds / pollIntervalSeconds))` further alone ticks
— floor division, not ceiling — and not before: after any smaller number of
alone ticks it is still running. -/
theorem C2_amended (cfg : WFEConfig) (pre : List Tick) (s : WState) (m : ℕ) (c : ℤ)
    (hc : 1 < c)
    (hrun : runWFE cfg initWState (pre ++ [⟨false, c⟩]) = .running s)
    (hm : m < maxAlone cfg) :
    runWFE cfg initWState (pre ++ [⟨false, c⟩] ++ List.replicate m aloneTick) =
      .running ⟨m, s.totalAlone + STATUS_CHECK_INTERVAL * m, true⟩ ∧
    runWFE cfg initWState (pre ++ [⟨false, c⟩] ++ List.replicate (maxAlone cfg) aloneTick) =
      .finished .allLeft := by
  have hshape : ∃ T0, s = ⟨0, T0, true⟩ := by
    rw [runWFE_append] at hrun
    cases hpre : runWFE cfg initWState pre with
    | finished why => rw [hpre] at hrun; exact absurd hrun (by simp)
    | running s0 =>
      rw [hpre] at hrun
      have hne1 : ¬ ((⟨false, c⟩ : Tick).count = 1) := by
        simp
        omega
      have hstep : stepWFE cfg s0 ⟨false, c⟩ = .cont ⟨0, s0.totalAlone, true⟩ false := by
        simp [stepWFE, hne1]
        omega
      simp only [runWFE, hstep] at hrun
      exact ⟨s0.totalAlone, by
        cases hrun
        rfl⟩
  obtain ⟨T0, hT0⟩ := hshape
  subst hT0
  constructor
  · rw [runWFE_append, hrun]
    have := runWFE_alone_true cfg m 0 T0 (by omega)
    simpa using this
  · rw [runWFE_append, hrun]
    exact runWFE_alone_halt cfg (maxAlone cfg) 0 T0 (le_max_left 1 _) (by omega)

/-- C2 witness: the amended statement at the default `aloneWaitSeconds = 15`
(`max_alone = 3`), empty prefix, `m = 2`. -/
theorem C2_amended_witness :
    runWFE ⟨15, 600⟩ initWState ([] ++ [⟨false, 2⟩] ++ List.replicate 2 aloneTick) =
      .running ⟨2, 0 + STATUS_CHECK_INTERVAL * 2, true⟩ ∧
    runWFE ⟨15, 600⟩ initWState
        ([] ++ [⟨false, 2⟩] ++ List.replicate (maxAlone ⟨15, 600⟩) aloneTick) =
      .finished .allLeft :=
  C2_amended ⟨15, 600⟩ [] ⟨0, 0, true⟩ 2 2 (by decide) (by decide) (by decide)

/-- Feeding alone ticks to a state that has never seen peers
(`had = false`): the loop NEVER breaks and never propagates an exception —
the `raise NoParticipantsError` of line 499 is caught by the blanket
`except Exception` handler at line 508 of the same loop. -/
theorem runWFE_alone_false (cfg : WFEConfig) :
    ∀ (n k T : ℕ),
      runWFE cfg ⟨k, T, false⟩ (List.replicate n aloneTick) =
        .running ⟨k + n, T + STATUS_CHECK_INTERVAL * n, false⟩ := by
  intro n
  induction n with
  | zero => intro k T; simp [runWFE]
  | succ n ih =>
    intro k T
    rw [List.replicate_succ]
    by_cases hc : cfg.emptyTimeout ≤ T + STATUS_CHECK_INTERVAL
    · have hstep : stepWFE cfg ⟨k, T, false⟩ aloneTick =
          .cont ⟨k + 1, T + STATUS_CHECK_INTERVAL, false⟩ true := by
        simp [stepWFE, aloneTick, hc]
      simp only [runWFE, hstep]
      rw [ih (k + 1) (T + STATUS_CHECK_INTERVAL)]
      have h1 : k + 1 + n = k + (n + 1) := by omega
      have h2 : T + STATUS_CHECK_INTERVAL + STATUS_CHECK_INTERVAL * n =
          T + STATUS_CHECK_INTERVAL * (n + 1) := by ring
      rw [h1, h2]
    · have hstep : stepWFE cfg ⟨k, T, false⟩ aloneTick =
          .cont ⟨k + 1, T + STATUS_CHECK_INTERVAL, false⟩ false := by
        simp [stepWFE, aloneTick, hc]
      simp only [runWFE, hstep]
      rw [ih (k + 1) (T + STATUS_CHECK_INTERVAL)]
      have h1 : k + 1 + n = k + (n + 1) := by omega
      have h2 : T + STATUS_CHECK_INTERVAL + STATUS_CHECK_INTERVAL * n =
          T + STATUS_CHECK_INTERVAL * (n + 1) := by ring
      rw [h1, h2]

/-- C7: evaluation of the code at the claim's own example
(`emptyMeetingTimeout = 10`, 5 s poll interval, participant count 1 on every
tick).  First conjunct: the wait-for-end loop never fails — it is still
running after any number of alone polls, because `raise NoParticipantsError`
(line 499) sits inside the `try:` whose blanket `except Exception` (line 508)
catches it.  Second conjunct: on the 2nd poll (accumulated alone time
reaching 10) the raise does execute and is swallowed
(`swallowedNoParticipants = true`), instead of propagating as the claim
requires. -/
theorem C7_swallowed_eval :
    (∀ n : ℕ, runWFE ⟨15, 10⟩ initWState (List.replicate n aloneTick) =
      .running ⟨n, STATUS_CHECK_INTERVAL * n, false⟩) ∧
    stepWFE ⟨15, 10⟩ ⟨1, STATUS_CHECK_INTERVAL, false⟩ aloneTick =
      .cont ⟨2, 10, false⟩ true := by
  constructor
  · intro n
    have := runWFE_alone_false ⟨15, 10⟩ n 0 0
    simpa using this
  · decide

/-! ### Transcription engine runtime (`transcription/groq_transcriber.py`) -/

/-- `GroqTranscriber.MAX_RETRIES = 3`. -/
def MAX_RETRIES : ℕ := 3

/-- `GroqTranscriber.RETRY_DELAY = 2` seconds. -/
def RETRY_DELAY : ℕ := 2

/-- A successful Groq API response (`verbose_json`): `text`, `language`,
`duration`.  The source falls back to the request language / `0.0` via
`getattr` when a field is missing; the model assumes the fields are present. -/
structure RawTranscription where
  text : String
  language : String
  duration : ℚ
deriving DecidableEq, Repr

/-- `TranscriptResult` of the source (`text`, `language`,
`duration_seconds`).  Python's `str.strip()` is modelled by `String.trim`. -/
structure TranscriptResult where
  text : String
  language : String
  duration_seconds : ℚ
deriving DecidableEq, Repr

/-- Retry loop of `GroqTranscriber._transcribe_single` over the listed
attempt numbers (`range(MAX_RETRIES)`).  `call a` is the API outcome of
attempt `a` (`none` = exception).  Returns the result (`error` = the final
`raise RuntimeError`), the number of API calls issued, and the list of
back-off delays slept between consecutive attempts
(`RETRY_DELAY * 2 ** attempt`, skipped after the last attempt). -/
def singleAux (call : ℕ → Option RawTranscription) :
    List ℕ → Except Unit TranscriptResult × ℕ × List ℕ
  | [] => (.error (), 0, [])
  | a :: rest =>
    match call a with
    | some r => (.ok ⟨r.text.trim, r.language, r.duration⟩, 1, [])
    | none =>
      if rest.isEmpty then (.error (), 1, [])
      else
        let (res, n, ds) := singleAux call rest
        (res, n + 1, (RETRY_DELAY * 2 ^ a) :: ds)

/-- `GroqTranscriber._transcribe_single` with its retry policy. -/
def transcribeSingle (call : ℕ → Option RawTranscription) :
    Except Unit TranscriptResult × ℕ × List ℕ :=
  singleAux call (List.range MAX_RETRIES)

/-- Per-segment loop of `GroqTranscriber._transcribe_segmented` (lines
177-194): segment `i` is transcribed with `transcribeSingle (api i)`; a
non-empty text is appended, the duration accumulates, and the detected
language is taken from the segment just transcribed.  A segment whose
retries are exhausted propagates the failure (the `RuntimeError` escapes the
`for` loop).  Also counts the total API calls issued. -/
def segsAux (api : ℕ → ℕ → Option RawTranscription) :
    ℕ → ℕ → List String → String → ℚ →
      Except Unit (List String × String × ℚ) × ℕ
  | _, 0, texts, language, dur => (.ok (texts, language, dur), 0)
  | i, rem + 1, texts, _, dur =>
    match transcribeSingle (api i) with
    | (.ok r, c, _) =>
      let (res, cs) := segsAux api (i + 1) rem
        (texts ++ if r.text = "" then [] else [r.text]) r.language
        (dur + r.duration_seconds)
      (res, c + cs)
    | (.error e, c, _) => (.error e, c)

/-- `GroqTranscriber._transcribe_segmented` over `n` segments (result and
API-call count): texts joined by a single space then stripped, summed
duration, language of the last transcribed segment (initially the request
language). -/
def transcribeSegmented (api : ℕ → ℕ → Option RawTranscription)
    (language : String) (n : ℕ) : Except Unit TranscriptResult × ℕ :=
  match segsAux api 0 n [] language 0 with
  | (.ok (texts, lg, d), c) => (.ok ⟨(String.intercalate " " texts).trim, lg, d⟩, c)
  | (.error e, c) => (.error e, c)

/-- Observable outcome of one `GroqTranscriber.transcribe` call. -/
structure GroqRun where
  result : Except Unit TranscriptResult
  apiCalls : ℕ
  segmented : Bool
  events : List FEv
deriving Repr

/-- `GroqTranscriber.transcribe` (lines 62-95) plus
`_transcribe_segmented`'s file handling.  `isMp3` — the input artifact
already has suffix `.mp3`, so `_convert_to_mp3` returns it unchanged;
otherwise a conversion temp file is created (conversion success assumed) and
unlinked in the `finally` of `transcribe`.  `mp3Size` is the canonical
file's byte size, `dur` its ffprobe duration, `ex` the extraction oracle,
`pts` the detected silence points, `api seg attempt` the Groq response.
When the size exceeds `MAX_FILE_SIZE` the segmented path runs:
`target = TARGET_SEGMENT_SIZE / (size / duration)` (byte rate fallback 16000
when the probed duration is 0), segmentation as in `planSegmentsEv`, then
every file in the returned segment list is unlinked in the `finally` of
`_transcribe_segmented` — and only those files. -/
def transcribeFull (isMp3 : Bool) (mp3Size : ℕ) (dur : ℚ) (ex : ℚ → ℚ → Option ℕ)
    (pts : List ℚ) (api : ℕ → ℕ → Option RawTranscription)
    (language : String) : GroqRun :=
  let convEv : List FEv := if isMp3 then [] else [.create .conv]
  let finEv : List FEv := if isMp3 then [] else [.delete .conv]
  if MAX_FILE_SIZE < mp3Size then
    let bps : ℚ := if 0 < dur then (mp3Size : ℚ) / dur else 16000
    let target : ℚ := (TARGET_SEGMENT_SIZE : ℚ) / bps
    let (plan, planEv) := planSegmentsEv ex pts dur target
    let (res, calls) := transcribeSegmented api language plan.length
    { result := res, apiCalls := calls, segmented := true,
      events := convEv ++ planEv ++ plan.map (fun g => .delete (.seg g.start g.stop)) ++ finEv }
  else
    let (res, calls, _) := transcribeSingle (api 0)
    { result := res, apiCalls := calls, segmented := false, events := convEv ++ finEv }

/-- `cli._run_recording` at the file level: the session writes the recorded
artifact, the engine runs, and the `finally` block (lines 175-181) deletes
the artifact unless `--keep-audio` was passed. -/
def runRecordingEvents (keepAudio : Bool) (engineEvents : List FEv) : List FEv :=
  [.create .artifact] ++ engineEvents ++ (if keepAudio then [] else [.delete .artifact])

unseal Rat.add Rat.mul Rat.sub Rat.inv in
/-- C5: evaluation of `transcribe` at the leak-triggering input.  A 30 MiB
MP3 artifact of 250 s with one silence point at 140 s: the target segment
duration is 500/3 s, so the cut loop tries a cut at 140 s, extracts the
candidate `[0, 140)` — whose ffmpeg output is 25 MiB, at least
`MAX_FILE_SIZE` — rejects it (`st_size < MAX_FILE_SIZE` fails) and moves on
WITHOUT unlinking it; the tail `[0, 250)` (20 MiB) becomes the only segment
and is duly deleted in the `finally`.  After `transcribe` returns, the
rejected candidate's temp file is still on disk, violating the cleanup
invariant. -/
theorem C5_leak_eval :
    liveFiles [TFile.artifact]
      (transcribeFull true 31457280 250
        (fun _ b => if b = 140 then some 26214400 else some 20971520)
        [140] (fun _ _ => some ⟨"ok", "ru", 250⟩) "ru").events =
      [TFile.artifact, TFile.seg 0 140] := by decide

/-- If every attempt of a call throws, the retry loop of
`_transcribe_single` exhausts and raises (`error`). -/
theorem transcribeSingle_error (call : ℕ → Option RawTranscription)
    (h : ∀ a, a < MAX_RETRIES → call a = none) :
    (transcribeSingle call).1 = .error () := by
  have h0 := h 0 (by decide)
  have h1 := h 1 (by decide)
  have h2 := h 2 (by decide)
  have hr : List.range MAX_RETRIES = [0, 1, 2] := by decide
  unfold transcribeSingle
  rw [hr]
  simp [singleAux, h0, h1, h2]

/-- If some segment within range fails all its attempts, the whole
segmented transcription fails (no partial result). -/
theorem segsAux_error (api : ℕ → ℕ → Option RawTranscription) :
    ∀ (rem j : ℕ) (texts : List String) (lang : String) (dur : ℚ) (k : ℕ),
      k < rem → (∀ a, a < MAX_RETRIES → api (j + k) a = none) →
      (segsAux api j rem texts lang dur).1 = .error () := by
  intro rem
  induction rem with
  | zero => intro j texts lang dur k hk _; omega
  | succ n ih =>
    intro j texts lang dur k hk hnone
    rcases hs : transcribeSingle (api j) with ⟨res, c, ds⟩
    cases res with
    | error e => simp [segsAux, hs]
    | ok r =>
      cases k with
      | zero =>
        have : (transcribeSingle (api j)).1 = .error () := by
          apply transcribeSingle_error
          intro a ha
          have := hnone a ha
          simpa using this
        rw [hs] at this
        exact absurd this (by simp)
      | succ k2 =>
        simp only [segsAux, hs]
        have := ih (j + 1) (texts ++ if r.text = "" then [] else [r.text])
          r.language (dur + r.duration_seconds) k2 (by omega)
          (fun a ha => by
            have := hnone a ha
            rwa [show j + 1 + k2 = j + (k2 + 1) from by omega])
        rcases hsa : segsAux api (j + 1) n
            (texts ++ if r.text = "" then [] else [r.text]) r.language
            (dur + r.duration_seconds) with ⟨res2, c2⟩
        rw [hsa] at this
        simpa using this

/-- C8: for every audio blob handed to `_transcribe_single`, at most
`MAX_RETRIES = 3` API attempts are made; the sleeps between consecutive
attempts are exactly `RETRY_DELAY * 2 ^ attempt` — a fixed 2 s base doubling
on each retry; if every attempt throws, the call errors out; and inside the
segmented path, a segment whose attempts all throw makes the whole
`_transcribe_segmented` fail with no partial per-segment results. -/
theorem C8_retry (call : ℕ → Option RawTranscription) :
    (transcribeSingle call).2.1 ≤ MAX_RETRIES ∧
    (transcribeSingle call).2.2 =
      (List.range ((transcribeSingle call).2.1 - 1)).map (fun a => RETRY_DELAY * 2 ^ a) ∧
    ((∀ a, a < MAX_RETRIES → call a = none) → (transcribeSingle call).1 = .error ()) ∧
    (∀ (api : ℕ → ℕ → Option RawTranscription) (language : String) (n i : ℕ),
      i < n → (∀ a, a < MAX_RETRIES → api i a = none) →
      (transcribeSegmented api language n).1 = .error ()) := by
  have hr : List.range MAX_RETRIES = [0, 1, 2] := by decide
  refine ⟨?_, ?_, ?_, ?_⟩
  · unfold transcribeSingle
    rw [hr]
    rcases h0 : call 0 with _ | r0 <;> rcases h1 : call 1 with _ | r1 <;>
      rcases h2 : call 2 with _ | r2 <;>
      simp [singleAux, h0, h1, h2, MAX_RETRIES]
  · unfold transcribeSingle
    rw [hr]
    rcases h0 : call 0 with _ | r0 <;> rcases h1 : call 1 with _ | r1 <;>
      rcases h2 : call 2 with _ | r2 <;>
      simp [singleAux, h0, h1, h2, RETRY_DELAY, List.range_succ]
  · exact transcribeSingle_error call
  · intro api language n i hi hnone
    unfold transcribeSegmented
    have := segsAux_error api n 0 [] language 0 i hi
      (fun a ha => by simpa using hnone a ha)
    rcases hsa : segsAux api 0 n [] language 0 with ⟨res, c⟩
    rw [hsa] at this
    cases res with
    | error e => simp
    | ok v => exact absurd (this) (by simp)

/-- C8 witness: the retry contract evaluated on an always-throwing call and
a single-segment run whose segment always throws. -/
theorem C8_retry_witness :
    (transcribeSingle (fun _ => none)).2.1 ≤ MAX_RETRIES ∧
    (transcribeSingle (fun _ => none)).2.2 =
      (List.range ((transcribeSingle (fun _ => none)).2.1 - 1)).map
        (fun a => RETRY_DELAY * 2 ^ a) ∧
    (transcribeSingle (fun _ => none)).1 = .error () ∧
    (transcribeSegmented (fun _ _ => none) "ru" 1).1 = .error () := by
  obtain ⟨h1, h2, h3, h4⟩ := C8_retry (fun _ => none)
  exact ⟨h1, h2, h3 (fun a _ => rfl),
    h4 (fun _ _ => none) "ru" 1 0 (by norm_num) (fun a _ => rfl)⟩

/-- C9: for an artifact whose canonical MP3 is under the size ceiling and
whose first API attempt succeeds, `transcribe` takes the single-file path:
exactly one Transcription Client call is issued, no segmentation is
performed, and the API result is returned verbatim apart from
whitespace-trimming of the text. -/
theorem C9_roundtrip (isMp3 : Bool) (mp3Size : ℕ) (dur : ℚ) (ex : ℚ → ℚ → Option ℕ)
    (pts : List ℚ) (api : ℕ → ℕ → Option RawTranscription) (language : String)
    (r : RawTranscription)
    (hsize : mp3Size < MAX_FILE_SIZE) (hfirst : api 0 0 = some r) :
    (transcribeFull isMp3 mp3Size dur ex pts api language).result =
      .ok ⟨r.text.trim, r.language, r.duration⟩ ∧
    (transcribeFull isMp3 mp3Size dur ex pts api language).apiCalls = 1 ∧
    (transcribeFull isMp3 mp3Size dur ex pts api language).segmented = false := by
  have hnot : ¬ MAX_FILE_SIZE < mp3Size := not_lt.mpr (le_of_lt hsize)
  have hr : List.range MAX_RETRIES = [0, 1, 2] := by decide
  have hsingle : transcribeSingle (api 0) =
      (.ok ⟨r.text.trim, r.language, r.duration⟩, 1, []) := by
    unfold transcribeSingle
    rw [hr]
    simp [singleAux, hfirst]
  refine ⟨?_, ?_, ?_⟩ <;> simp [transcribeFull, hnot, hsingle]

/-- C9 witness: the single-call round trip evaluated on a 100-byte artifact
whose API response is `" hi "` / `"ru"` / 3 s. -/
theorem C9_roundtrip_witness :
    (transcribeFull true 100 1 (fun _ _ => none) []
      (fun _ _ => some ⟨" hi ", "ru", 3⟩) "ru").result =
      .ok ⟨String.trim " hi ", "ru", 3⟩ ∧
    (transcribeFull true 100 1 (fun _ _ => none) []
      (fun _ _ => some ⟨" hi ", "ru", 3⟩) "ru").apiCalls = 1 ∧
    (transcribeFull true 100 1 (fun _ _ => none) []
      (fun _ _ => some ⟨" hi ", "ru", 3⟩) "ru").segmented = false :=
  C9_roundtrip true 100 1 (fun _ _ => none) [] (fun _ _ => some ⟨" hi ", "ru", 3⟩)
    "ru" ⟨" hi ", "ru", 3⟩ (by decide) rfl

/-- Does an event create or delete the recorded artifact file? -/
def touchesArtifact : FEv → Bool
  | .create .artifact => true
  | .delete .artifact => true
  | _ => false

theorem extractSegment_artifactFree (ex : ℚ → ℚ → Option ℕ) (a b : ℚ) :
    ∀ ev ∈ (extractSegment ex a b).2, touchesArtifact ev = false := by
  unfold extractSegment
  split
  · simp
  · cases h : ex a b <;> simp [h, touchesArtifact]

theorem splitGo_artifactFree (ex : ℚ → ℚ → Option ℕ) (target total : ℚ) :
    ∀ (n : ℕ) (cur : ℚ), ∀ ev ∈ (splitGo ex target total n cur).2,
      touchesArtifact ev = false := by
  intro n
  induction n with
  | zero => intro cur ev hev; simp [splitGo] at hev
  | succ n ih =>
    intro cur ev hev
    by_cases h : cur < total
    · rcases hext : extractSegment ex cur (min (cur + target) total) with ⟨o, ev2⟩
      have hev2 : ∀ e ∈ ev2, touchesArtifact e = false := by
        intro e he
        have := extractSegment_artifactFree ex cur (min (cur + target) total) e
        rw [hext] at this
        exact this he
      cases o with
      | some sz =>
        simp only [splitGo, if_pos h, hext] at hev
        rcases List.mem_append.mp hev with hv | hv
        · exact hev2 ev hv
        · exact ih (min (cur + target) total) ev hv
      | none =>
        simp only [splitGo, if_pos h, hext] at hev
        rcases List.mem_append.mp hev with hv | hv
        · exact hev2 ev hv
        · exact ih (min (cur + target) total) ev hv
    · simp [splitGo, if_neg h] at hev

theorem cutLoop_artifactFree (ex : ℚ → ℚ → Option ℕ) (target : ℚ) :
    ∀ (pts : List ℚ) (s : ℚ), ∀ ev ∈ (cutLoop ex target pts s).2.2,
      touchesArtifact ev = false := by
  intro pts
  induction pts with
  | nil => intro s ev hev; simp [cutLoop] at hev
  | cons p ps ih =>
    intro s ev hev
    by_cases hc : target * (4/5) ≤ p - s
    · rcases hext : extractSegment ex s p with ⟨o, ev2⟩
      have hev2 : ∀ e ∈ ev2, touchesArtifact e = false := by
        intro e he
        have := extractSegment_artifactFree ex s p e
        rw [hext] at this
        exact this he
      cases o with
      | some sz =>
        by_cases hsz : sz < MAX_FILE_SIZE
        · simp only [cutLoop, if_pos hc, hext, if_pos hsz] at hev
          rcases List.mem_append.mp hev with hv | hv
          · exact hev2 ev hv
          · exact ih p ev hv
        · simp only [cutLoop, if_pos hc, hext, if_neg hsz] at hev
          rcases List.mem_append.mp hev with hv | hv
          · exact hev2 ev hv
          · exact ih s ev hv
      | none =>
        simp only [cutLoop, if_pos hc, hext] at hev
        rcases List.mem_append.mp hev with hv | hv
        · exact hev2 ev hv
        · exact ih s ev hv
    · simp only [cutLoop, if_neg hc] at hev
      exact ih s ev hev

theorem createSegments_artifactFree (ex : ℚ → ℚ → Option ℕ) (pts : List ℚ)
    (total target : ℚ) :
    ∀ ev ∈ (createSegments ex pts total target).2, touchesArtifact ev = false := by
  intro ev hev
  by_cases hemp : pts.isEmpty
  · simp [createSegments, hemp] at hev
  · simp only [createSegments, hemp, Bool.false_eq_true, if_false] at hev
    set s : ℚ := (cutLoop ex target pts 0).2.1 with hs
    have hcut : ∀ e ∈ (cutLoop ex target pts 0).2.2, touchesArtifact e = false :=
      cutLoop_artifactFree ex target pts 0
    by_cases htail : s < total - 1
    · rcases hext : extractSegment ex s total with ⟨o, ev2⟩
      have hev2 : ∀ e ∈ ev2, touchesArtifact e = false := by
        intro e he
        have := extractSegment_artifactFree ex s total e
        rw [hext] at this
        exact this he
      cases o with
      | some sz =>
        by_cases hbig : MAX_FILE_SIZE < sz
        · simp only [if_pos htail, hext, if_pos hbig] at hev
          rcases List.mem_append.mp hev with hv | hv
          · rcases List.mem_append.mp hv with hv2 | hv2
            · rcases List.mem_append.mp hv2 with hv3 | hv3
              · exact hcut ev hv3
              · exact hev2 ev hv3
            · rcases List.mem_singleton.mp hv2 with hv2
              subst hv2
              rfl
          · exact splitGo_artifactFree ex target total _ s ev hv
        · simp only [if_pos htail, hext, if_neg hbig] at hev
          rcases List.mem_append.mp hev with hv | hv
          · exact hcut ev hv
          · exact hev2 ev hv
      | none =>
        simp only [if_pos htail, hext] at hev
        rcases List.mem_append.mp hev with hv | hv
        · exact hcut ev hv
        · exact hev2 ev hv
    · simp only [if_neg htail] at hev
      exact hcut ev hev

theorem planSegmentsEv_artifactFree (ex : ℚ → ℚ → Option ℕ) (pts : List ℚ)
    (total target : ℚ) :
    ∀ ev ∈ (planSegmentsEv ex pts total target).2, touchesArtifact ev = false := by
  intro ev hev
  unfold planSegmentsEv at hev
  by_cases hemp : (createSegments ex pts total target).1.isEmpty
  · simp only [hemp, if_true] at hev
    rcases List.mem_append.mp hev with hv | hv
    · exact createSegments_artifactFree ex pts total target ev hv
    · exact splitGo_artifactFree ex target total _ 0 ev hv
  · simp only [hemp, Bool.false_eq_true, if_false] at hev
    exact createSegments_artifactFree ex pts total target ev hev

theorem transcribeFull_artifactFree (isMp3 : Bool) (mp3Size : ℕ) (dur : ℚ)
    (ex : ℚ → ℚ → Option ℕ) (pts : List ℚ)
    (api : ℕ → ℕ → Option RawTranscription) (language : String) :
    ∀ ev ∈ (transcribeFull isMp3 mp3Size dur ex pts api language).events,
      touchesArtifact ev = false := by
  intro ev hev
  unfold transcribeFull at hev
  by_cases hsz : MAX_FILE_SIZE < mp3Size
  · simp only [if_pos hsz] at hev
    rcases List.mem_append.mp hev with hv | hv
    · rcases List.mem_append.mp hv with hv2 | hv2
      · rcases List.mem_append.mp hv2 with hv3 | hv3
        · cases isMp3 with
          | true => simp at hv3
          | false =>
            simp at hv3
            subst hv3
            rfl
        · exact planSegmentsEv_artifactFree ex pts dur _ ev hv3
      · rcases List.mem_map.mp hv2 with ⟨g, _, hg2⟩
        subst hg2
        rfl
    · cases isMp3 with
      | true => simp at hv
      | false =>
        simp at hv
        subst hv
        rfl
  · simp only [if_neg hsz] at hev
    cases isMp3 with
    | true => simp at hev
    | false =>
      simp at hev
      rcases hev with hv | hv <;> subst hv <;> rfl

/-- Events that never touch the artifact preserve its multiplicity on disk. -/
theorem liveFiles_artifact_count (evs : List FEv)
    (hfree : ∀ ev ∈ evs, touchesArtifact ev = false) :
    ∀ init : List TFile,
      (liveFiles init evs).count TFile.artifact = init.count TFile.artifact := by
  induction evs with
  | nil => intro init; rfl
  | cons ev rest ih =>
    intro init
    have hev := hfree ev (List.mem_cons_self ev rest)
    have hrest : ∀ e ∈ rest, touchesArtifact e = false :=
      fun e he => hfree e (List.mem_cons_of_mem ev he)
    cases ev with
    | create f =>
      have hne : TFile.artifact ≠ f := by
        intro hcon
        subst hcon
        simp [touchesArtifact] at hev
      have : liveFiles init (FEv.create f :: rest) = liveFiles (init ++ [f]) rest := rfl
      rw [this, ih hrest]
      rw [List.count_append]
      simp [List.count_singleton', hne.symm]
    | delete f =>
      have hne : TFile.artifact ≠ f := by
        intro hcon
        subst hcon
        simp [touchesArtifact] at hev
      have : liveFiles init (FEv.delete f :: rest) = liveFiles (init.erase f) rest := rfl
      rw [this, ih hrest]
      exact List.count_erase_of_ne hne init

/-- C6 counterexample: the engine never deletes the input artifact.  For a
WebM artifact (so a conversion file is created) of 1000 bytes taking the
single-call path, the events of `transcribe` contain no
`delete artifact` at all, and the artifact is still on disk after
`transcribe` returns — the deletion the claim attributes to the engine in
fact happens later, in `cli._run_recording`'s `finally` block. -/
theorem C6_counterexample :
    FEv.delete TFile.artifact ∉
      (transcribeFull false 1000 10 (fun _ _ => some 0) []
        (fun _ _ => some ⟨"t", "ru", 10⟩) "ru").events ∧
    TFile.artifact ∈
      liveFiles [TFile.artifact]
        (transcribeFull false 1000 10 (fun _ _ => some 0) []
          (fun _ _ => some ⟨"t", "ru", 10⟩) "ru").events := by
  constructor
  · decide
  · decide

/-- C6 (amended): disposal of the recording artifact happens after the
engine's `transcribe` completes, but it is performed by the CLI pipeline
wrapper (`_run_recording`'s `finally`), not by the engine: for every run of
the pipeline, the artifact remains on disk afterwards if and only if the
caller opted to retain it (`--keep-audio`); the engine itself neither
creates nor deletes the artifact file. -/
theorem C6_amended (keep isMp3 : Bool) (mp3Size : ℕ) (dur : ℚ)
    (ex : ℚ → ℚ → Option ℕ) (pts : List ℚ)
    (api : ℕ → ℕ → Option RawTranscription) (language : String) :
    (TFile.artifact ∈
      liveFiles []
        (runRecordingEvents keep
          (transcribeFull isMp3 mp3Size dur ex pts api language).events)) ↔
    keep = true := by
  set E : List FEv := (transcribeFull isMp3 mp3Size dur ex pts api language).events with hE
  have hfree : ∀ ev ∈ E, touchesArtifact ev = false := by
    rw [hE]
    exact transcribeFull_artifactFree isMp3 mp3Size dur ex pts api language
  have hsplit : runRecordingEvents keep E =
      [FEv.create TFile.artifact] ++ (E ++ (if keep then [] else [FEv.delete TFile.artifact])) := by
    simp [runRecordingEvents]
  have hlive1 : liveFiles [] (runRecordingEvents keep E) =
      liveFiles (liveFiles [TFile.artifact] E) (if keep then [] else [FEv.delete TFile.artifact]) := by
    rw [hsplit]
    unfold liveFiles
    rw [List.foldl_append, List.foldl_append]
    rfl
  have hcount : (liveFiles [TFile.artifact] E).count TFile.artifact = 1 := by
    rw [liveFiles_artifact_count E hfree [TFile.artifact]]
    simp
  cases keep with
  | true =>
    simp only [if_true] at hlive1
    rw [hlive1]
    have hnil : liveFiles (liveFiles [TFile.artifact] E) [] =
        liveFiles [TFile.artifact] E := rfl
    rw [hnil]
    refine ⟨fun _ => rfl, fun _ => ?_⟩
    refine List.count_pos_iff.mp ?_
    rw [hcount]
    norm_num
  | false =>
    rw [if_neg (by simp : ¬(false = true))] at hlive1
    rw [hlive1]
    have : liveFiles (liveFiles [TFile.artifact] E) [FEv.delete TFile.artifact] =
        (liveFiles [TFile.artifact] E).erase TFile.artifact := rfl
    rw [this]
    constructor
    · intro hmem
      exfalso
      have hc := List.count_erase_self TFile.artifact (liveFiles [TFile.artifact] E)
      rw [hcount] at hc
      have : ((liveFiles [TFile.artifact] E).erase TFile.artifact).count TFile.artifact = 0 := hc
      rw [List.count_eq_zero] at this
      exact this hmem
    · intro hcon
      exact absurd hcon (by simp)

/-! ### Meeting-URL validation (`TelemostSession.__init__`, lines 59-91) -/

/-- `ALLOWED_HOSTS = {"telemost.yandex.ru", "telemost.yandex.com"}`. -/
def ALLOWED_HOSTS : List String := ["telemost.yandex.ru", "telemost.yandex.com"]

/-- Characters allowed in a URL scheme after the first letter
(`scheme_chars` of CPython's `urllib.parse`). -/
def isSchemeChar (c : Char) : Bool :=
  c.isAlphanum || c = '+' || c = '-' || c = '.'

/-- The scheme-splitting step of `urllib.parse.urlsplit`: when the text
before the first `:` is a letter followed by scheme characters, everything
after that `:` remains; otherwise the URL is untouched. -/
def dropScheme (cs : List Char) : List Char :=
  let pre := cs.takeWhile (fun c => c ≠ ':')
  if pre.length < cs.length then
    match pre with
    | [] => cs
    | c0 :: _ =>
      if c0.isAlpha && pre.all isSchemeChar then cs.drop (pre.length + 1)
      else cs
  else cs

/-- The netloc step of `urlsplit`: present only when the (scheme-stripped)
URL starts with `//`, and extends to the next `/`, `?` or `#`. -/
def takeNetloc : List Char → Option (List Char)
  | '/' :: '/' :: rest =>
    some (rest.takeWhile (fun c => c ≠ '/' ∧ c ≠ '?' ∧ c ≠ '#'))
  | _ => none

/-- `netloc.rpartition('@')`: the host-and-port part after the last `@`
(userinfo stripped). -/
def afterLastAt (cs : List Char) : List Char :=
  (cs.reverse.takeWhile (fun c => c ≠ '@')).reverse

/-- `urllib.parse.urlparse(url).hostname` for the URLs this program
handles: scheme stripped, netloc required (else `None`), userinfo and port
stripped, lower-cased, `None` when empty.  CPython's bracketed-IPv6 parsing
and its removal of stray tab/CR/LF characters are not modelled; for a
bracketed or malformed-bracket netloc CPython raises `ValueError` from
`urlsplit` itself, which the constructor surfaces identically to its own
`ValueError`. -/
def pyHostname (url : String) : Option String :=
  let rest := dropScheme url.toList
  match takeNetloc rest with
  | none => none
  | some netloc =>
    let host := (afterLastAt netloc).takeWhile (fun c => c ≠ ':')
    match host with
    | [] => none
    | _ => some (String.mk (host.map Char.toLower))

/-- `parsed.hostname not in ALLOWED_HOSTS` — an absent hostname is never
allowed. -/
def allowedHost : Option String → Bool
  | some h => ALLOWED_HOSTS.contains h
  | none => false

/-- The observable fields `TelemostSession.__init__` stores after its
validation (browser state is all `None` until `__aenter__`; the constructor
performs no browser or network call — the URL check is its first statement). -/
structure TelemostSessionData where
  meeting_url : String
deriving DecidableEq, Repr

/-- `TelemostSession.__init__` (lines 59-91): `urlparse` the meeting URL and
raise `ValueError` when the hostname is not an allowed Telemost host;
otherwise store the fields and return. -/
def TelemostSession_init (meeting_url : String) : Except String TelemostSessionData :=
  if allowedHost (pyHostname meeting_url) then .ok ⟨meeting_url⟩
  else .error "Invalid meeting URL host"

/-- C10: constructing a session raises `ValueError` exactly when the URL's
parsed hostname is not one of the two allowed Telemost hosts, and succeeds
otherwise — checked generically and on concrete URLs (plain, with port,
upper-case host (lowered by `urlparse`), with userinfo and query, a foreign
host, and a schemeless URL whose hostname is `None`).  The constructor
performs no browser or network side effect in either case: validation is its
first statement and the browser starts only in `__aenter__`. -/
theorem C10_url_validation :
    (∀ url : String,
      ((TelemostSession_init url).isOk = true ↔ allowedHost (pyHostname url) = true)) ∧
    (TelemostSession_init "https://telemost.yandex.ru/j/12345678").isOk = true ∧
    (TelemostSession_init "https://TELEMOST.YANDEX.COM:8443/j/1").isOk = true ∧
    pyHostname "https://user:pw@telemost.yandex.ru:443/j/x?q=1" =
      some "telemost.yandex.ru" ∧
    (TelemostSession_init "https://meet.google.com/abc").isOk = false ∧
    (TelemostSession_init "telemost.yandex.ru/j/123").isOk = false := by
  refine ⟨?_, ?_, ?_, ?_, ?_, ?_⟩
  · intro url
    unfold TelemostSession_init
    by_cases h : allowedHost (pyHostname url) = true
    · rw [if_pos h]
      exact ⟨fun _ => h, fun _ => rfl⟩
    · rw [if_neg h]
      exact ⟨fun hc => absurd hc (by decide), fun hc => absurd hc h⟩
  · decide
  · decide
  · decide
  · decide
  · decide
